import Mathlib

/-!
Verification of the field-column discovery planner and aggregator of the
influxrpc query frontend.  The repository's own sources only contain the
test harness (`query_tests/src/influxrpc/field_columns.rs`); the planner
(`InfluxRpcPlanner::field_columns`) and the aggregator (`to_field_list`)
are modelled here from the specification, faithfully following §4.1 and
§4.2 of the design document.
-/

namespace FieldCols

/-- Decidable equality of `Except` values (not provided by the library). -/
instance {ε α : Type} [DecidableEq ε] [DecidableEq α] :
    DecidableEq (Except ε α) := fun a b =>
  match a, b with
  | .error e1, .error e2 =>
    if h : e1 = e2 then isTrue (by rw [h])
    else isFalse (fun hc => h (by injection hc))
  | .error _, .ok _ => isFalse (fun hc => Except.noConfusion hc)
  | .ok _, .error _ => isFalse (fun hc => Except.noConfusion hc)
  | .ok a1, .ok a2 =>
    if h : a1 = a2 then isTrue (by rw [h])
    else isFalse (fun hc => h (by injection hc))

/-- Decision procedure for the codepoint (lexicographic) order on strings
that reduces inside the kernel, via the underlying character lists. -/
instance (priority := 2000) strDecidableLt (a b : String) :
    Decidable (a < b) :=
  decidable_of_iff (a.toList < b.toList) String.lt_iff_toList_lt.symm

/-- Field data types, spec §3: one of Float, Integer, UInteger, String, Boolean. -/
inductive DataType where
  | float
  | integer
  | uinteger
  | string
  | boolean
deriving DecidableEq

/-- A concrete cell value of one of the five field data types.
A float payload is carried purely structurally as a scaled decimal
`num / 10 ^ scale` (only storage and equality of values is ever needed,
never float arithmetic). -/
inductive Val where
  | vfloat (num : Int) (scale : Nat)
  | vint (x : Int)
  | vuint (x : Nat)
  | vstr (s : String)
  | vbool (b : Bool)
deriving DecidableEq

/-- A row: tag columns, field columns (a missing or `none` entry is a null
cell), and the implicit timestamp column. -/
structure Row where
  tags : List (String × String)
  fields : List (String × Option Val)
  time : Int
deriving DecidableEq

/-- A chunk/fragment, spec glossary: a physical slice of a table's data with
its own schema snapshot (field name to declared data type). -/
structure Chunk where
  fieldSchema : List (String × DataType)
  rows : List Row
deriving DecidableEq

/-- A table/measurement: a named collection of chunks. -/
structure Table where
  name : String
  chunks : List Chunk
deriving DecidableEq

/-- The database catalog: tables in the catalog's exposure order. -/
abbrev Database := List Table

/-- Spec §9 design note: predicate terms are a closed tagged variant so the
planner can pattern-match and strip plan-time-resolved terms.  `tagEq` is a
per-row tag equality filter; `measurementEq` is the reserved
measurement-identity equality term. -/
inductive FilterTerm where
  | tagEq (tag : String) (val : String)
  | measurementEq (measurement : String)
deriving DecidableEq

/-- Whether a filter term is the reserved measurement-identity term. -/
def FilterTerm.isMeasurementEq : FilterTerm → Bool
  | .measurementEq _ => true
  | .tagEq _ _ => false

/-- Predicate, spec §3: optional exact table name, ordered filter
expressions, optional half-open timestamp range [start, end). -/
structure Predicate where
  table_name : Option String
  exprs : List FilterTerm
  range : Option (Int × Int)
deriving DecidableEq

/-- Spec §6 accessor `measurement_equality()`: the first
measurement-equality term among the predicate's expressions, if any. -/
def Predicate.measurement_equality (p : Predicate) : Option String :=
  p.exprs.findSome? (fun t =>
    match t with
    | .measurementEq m => some m
    | .tagEq _ _ => none)

/-- Spec §6 accessor `row_filter_terms()`: the predicate's expressions with
measurement-equality terms stripped (spec §4.1 step 1: the measurement term
is fully resolved at plan time and must not be re-emitted as a per-row
filter). -/
def Predicate.row_filter_terms (p : Predicate) : List FilterTerm :=
  p.exprs.filter (fun t => !t.isMeasurementEq)

/-- Association-list lookup by key (first matching entry wins). -/
def alookup {α : Type} (n : String) : List (String × α) → Option α
  | [] => none
  | p :: ps => if p.1 = n then some p.2 else alookup n ps

/-- Value of field column `c` in row `r`; a missing entry is a null cell. -/
def Row.colVal (r : Row) (c : String) : Option Val :=
  match alookup c r.fields with
  | some v => v
  | none => none

/-- Catalog accessor `list_tables()`: table names in exposure order. -/
def tableNames (db : Database) : List String :=
  db.map Table.name

/-- Catalog lookup of a table by name (first match wins). -/
def findTable : Database → String → Option Table
  | [], _ => none
  | t :: ts, n => if t.name = n then some t else findTable ts n

/-- Whether a timestamp lies in the optional half-open range [start, end). -/
def inRange : Option (Int × Int) → Int → Bool
  | none, _ => true
  | some (s, e), t => decide (s ≤ t) && decide (t < e)

/-- Evaluation of one filter term on a row of the given table: tag equality
compares the row's tag value; the reserved measurement term compares the
table name itself. -/
def FilterTerm.evalOn (t : FilterTerm) (table : String) (r : Row) : Bool :=
  match t with
  | .tagEq k v => alookup k r.tags == some v
  | .measurementEq m => table == m

/-- Spec §3: a row matches iff all present constraints hold (every filter
term and the timestamp range). -/
def rowMatches (table : String) (filters : List FilterTerm)
    (range : Option (Int × Int)) (r : Row) : Bool :=
  filters.all (fun f => f.evalOn table r) && inRange range r.time

/-- Concatenation of a list of lists. -/
def flat {α : Type} : List (List α) → List α
  | [] => []
  | b :: bs => b ++ flat bs

/-- Planning errors, spec §7: cross-chunk field type conflict. -/
inductive PlanError where
  | schemaConflict
deriving DecidableEq

/-- Insert one declared field column into a name-sorted merged schema,
spec §4.1 step 2b: same name with a different declared data type is a
fatal schema conflict; same name with the same type is idempotent. -/
def insertCol (c : String × DataType) :
    List (String × DataType) → Except PlanError (List (String × DataType))
  | [] => .ok [c]
  | d :: ds =>
    if c.1 < d.1 then .ok (c :: d :: ds)
    else if c.1 = d.1 then
      if c.2 = d.2 then .ok (d :: ds) else .error .schemaConflict
    else (insertCol c ds).map (fun ds' => d :: ds')

/-- Modelled from the spec: §4.1 step 2b, the schema-merge utility absent
from `src/`.  Merge the field schemas of all chunks of a table into one
superset, sorted ascending by field name, detecting type conflicts. -/
def mergedSchema (chunks : List Chunk) :
    Except PlanError (List (String × DataType)) :=
  (flat (chunks.map Chunk.fieldSchema)).foldl
    (fun acc c => acc >>= insertCol c) (.ok [])

/-- Name of the implicit timestamp column (spec scenario C). -/
def timeColumn : String := "time"

/-- Modelled from the spec: §3, the opaque `LogicalPlan` built by the
planner, absent from `src/`.  A scan+filter description over one table's
chunks: the table, the merged field columns to project, the residual
per-row filter terms, and the timestamp range. -/
structure LogicalPlan where
  table : String
  fieldColumns : List (String × DataType)
  filters : List FilterTerm
  range : Option (Int × Int)
deriving DecidableEq

/-- Spec §4.1 step 2d: the plan projects exactly the merged field columns
plus the implicit timestamp column, in that order. -/
def LogicalPlan.projectedColumns (p : LogicalPlan) : List String :=
  p.fieldColumns.map Prod.fst ++ [timeColumn]

/-- Spec §3: ordered sequence of LogicalPlan, one per surviving table. -/
structure FieldListPlan where
  plans : List LogicalPlan
deriving DecidableEq

/-- Spec §4.1 step 1: resolve the candidate tables of a predicate.
An explicit table-name term is intersected with the existing tables; else
a measurement-equality term yields that single name; else all tables. -/
def candidateTables (db : Database) (pred : Predicate) : List String :=
  match pred.table_name with
  | some t => if t ∈ tableNames db then [t] else []
  | none =>
    match pred.measurement_equality with
    | some m => [m]
    | none => tableNames db

/-- Modelled from the spec: §4.1 step 2 for one candidate table (the
planner body absent from `src/`).  A missing table or a table whose merged
schema has zero field columns is skipped (no plan emitted); a schema
conflict is fatal. -/
def buildPlan (db : Database) (pred : Predicate) (tname : String) :
    Except PlanError (Option LogicalPlan) :=
  match findTable db tname with
  | none => .ok none
  | some t =>
    (mergedSchema t.chunks).map (fun cols =>
      if cols.isEmpty then none
      else some ⟨tname, cols, pred.row_filter_terms, pred.range⟩)

/-- Modelled from the spec: §4.1 step 2, the per-candidate plan-building
loop of the planner (absent from `src/`), in catalog exposure order. -/
def buildPlans (db : Database) (pred : Predicate) :
    List String → Except PlanError (List LogicalPlan)
  | [] => .ok []
  | t :: ts =>
    buildPlan db pred t >>= fun op =>
    buildPlans db pred ts >>= fun rest =>
    .ok (match op with
         | none => rest
         | some p => p :: rest)

/-- Modelled from the spec: §4.1, `InfluxRpcPlanner::field_columns`
(absent from `src/`): predicate + catalog to an ordered set of per-table
logical plans; an empty candidate set yields an empty plan list as a
success. -/
def field_columns (db : Database) (pred : Predicate) :
    Except PlanError FieldListPlan :=
  (buildPlans db pred (candidateTables db pred)).map FieldListPlan.mk

/-- Modelled from the spec: §6, the external executor `run(LogicalPlan)`
(absent from `src/`): scan the plan's table's chunks and keep the rows
passing the plan's filters and range. -/
def runPlan (db : Database) (p : LogicalPlan) : List Row :=
  match findTable db p.table with
  | none => []
  | some t => (flat (t.chunks.map Chunk.rows)).filter
      (rowMatches p.table p.filters p.range)

/-- Output field, spec §3: name, data type, and last (maximum) timestamp
among predicate-matching rows where the field is non-null. -/
structure Field where
  name : String
  data_type : DataType
  last_timestamp : Int
deriving DecidableEq

/-- Spec §3: ordered sequence of Field, strictly ascending by name. -/
structure FieldList where
  fields : List Field
deriving DecidableEq

/-- Maximum of two optional timestamps (`none` is the identity). -/
def optMax : Option Int → Option Int → Option Int
  | none, b => b
  | some a, none => some a
  | some a, some b => some (max a b)

/-- Maximum of a list of timestamps, `none` when the list is empty. -/
def maxTs : List Int → Option Int
  | [] => none
  | t :: ts => optMax (some t) (maxTs ts)

/-- Timestamps of the rows in which column `c` is non-null. -/
def nonNullTimes (c : String) (rows : List Row) : List Int :=
  rows.filterMap (fun r => if (r.colVal c).isSome then some r.time else none)

/-- Modelled from the spec: §4.2 steps 1-2, the per-plan streaming pass of
`to_field_list` (absent from `src/`): for every projected field column,
the maximum timestamp among non-null rows across all batches in supplied
order; a column with no observed non-null value is silently dropped. -/
def planFields (cols : List (String × DataType))
    (batches : List (List Row)) : List Field :=
  cols.filterMap (fun c =>
    (maxTs (nonNullTimes c.1 (flat batches))).map
      (fun ts => ⟨c.1, c.2, ts⟩))

/-- Aggregation errors, spec §7: cross-plan field type disagreement. -/
inductive AggError where
  | typeConflict
deriving DecidableEq

/-- Insert one candidate field into the name-sorted merge accumulator,
spec §4.2 step 3: same name requires agreeing data types (else fatal),
and the last timestamp becomes the maximum across occurrences. -/
def insertField (f : Field) : List Field → Except AggError (List Field)
  | [] => .ok [f]
  | g :: gs =>
    if f.name < g.name then .ok (f :: g :: gs)
    else if f.name = g.name then
      if f.data_type = g.data_type then
        .ok ({ name := g.name, data_type := g.data_type,
               last_timestamp := max f.last_timestamp g.last_timestamp } :: gs)
      else .error .typeConflict
    else (insertField f gs).map (fun gs' => g :: gs')

/-- Modelled from the spec: §4.2 steps 3-4 (absent from `src/`): combine
all plans' candidate fields keyed by name into the final sorted merge. -/
def mergeFields (fs : List Field) : Except AggError (List Field) :=
  fs.foldl (fun acc f => acc >>= insertField f) (.ok [])

/-- The result of executing one plan: its projected field columns and the
sequence of row batches its execution produced. -/
abbrev PlanResult := List (String × DataType) × List (List Row)

/-- Modelled from the spec: §4.2, the cross-plan aggregation of
`to_field_list` over abstract per-plan results (absent from `src/`). -/
def aggregate (results : List PlanResult) : Except AggError FieldList :=
  (mergeFields (flat (results.map (fun pr => planFields pr.1 pr.2)))).map
    FieldList.mk

/-- Modelled from the spec: §4.2, `to_field_list` (absent from `src/`):
execute every emitted plan and aggregate the batches into one merged,
sorted `FieldList`. -/
def to_field_list (db : Database) (p : FieldListPlan) :
    Except AggError FieldList :=
  aggregate (p.plans.map (fun pl => (pl.fieldColumns, [runPlan db pl])))

/-- A whole-call error: either stage failed (spec §7 taxonomy collapsed to
which stage was fatal). -/
inductive QueryError where
  | planning
  | aggregation
deriving DecidableEq

/-- The full call as the test harness performs it: `field_columns`
followed by `to_field_list`. -/
def runQuery (db : Database) (pred : Predicate) : Except QueryError FieldList :=
  match field_columns db pred with
  | .error _ => .error .planning
  | .ok p =>
    match to_field_list db p with
    | .error _ => .error .aggregation
    | .ok fl => .ok fl

/-- All rows of a table, across its chunks, in order. -/
def Table.allRows (t : Table) : List Row :=
  flat (t.chunks.map Chunk.rows)

/-- The rows of one candidate table that match the predicate's residual
filters and timestamp range (the rows an emitted plan would produce). -/
def tableMatchingRows (db : Database) (pred : Predicate) (tn : String) :
    List Row :=
  match findTable db tn with
  | none => []
  | some t => t.allRows.filter
      (rowMatches tn pred.row_filter_terms pred.range)

/-- All predicate-matching rows of the database: the matching rows of
every candidate table, in candidate order. -/
def matchingRows (db : Database) (pred : Predicate) : List Row :=
  flat ((candidateTables db pred).map (tableMatchingRows db pred))

/-- Spec §3 invariant, stated directly: the maximum timestamp among
predicate-matching rows in which column `c` is non-null (`none` when
there is no such row). -/
def specLastTs (db : Database) (pred : Predicate) (c : String) : Option Int :=
  maxTs (nonNullTimes c (matchingRows db pred))

/-- The rows a catalog lookup of table `n` exposes (empty when absent). -/
def tableRows (db : Database) (n : String) : List Row :=
  match findTable db n with
  | none => []
  | some t => t.allRows

/-- The merged-schema result a catalog lookup of table `n` exposes. -/
def tableSchema (db : Database) (n : String) :
    Option (Except PlanError (List (String × DataType))) :=
  (findTable db n).map (fun t => mergedSchema t.chunks)

/-- Concrete rows used to witness order-independent aggregation. -/
def rowA1 : Row := ⟨[], [("a", some (.vint 1))], 5⟩

/-- Second concrete row of the `a` plan result. -/
def rowA2 : Row := ⟨[], [("a", some (.vint 2))], 9⟩

/-- Concrete row of the `b` plan result. -/
def rowB : Row := ⟨[], [("b", some (.vfloat 1 0))], 3⟩

/-- A concrete plan result with two batches. -/
def planResA : PlanResult := ([("a", DataType.integer)], [[rowA1], [rowA2]])

/-- The same plan result with its batches swapped. -/
def planResArev : PlanResult := ([("a", DataType.integer)], [[rowA2], [rowA1]])

/-- A concrete single-batch plan result for a second table. -/
def planResB : PlanResult := ([("b", DataType.float)], [[rowB]])

/-- A database is well-formed when every non-null field cell of every row
is declared in its chunk's field schema (rows conform to their chunk's
schema snapshot). -/
@[reducible] def WellFormed (db : Database) : Prop :=
  ∀ t ∈ db, ∀ c ∈ t.chunks, ∀ r ∈ c.rows, ∀ p ∈ r.fields,
    p.2.isSome → p.1 ∈ c.fieldSchema.map Prod.fst

/-- Last timestamp of the field named `n` in a field list, if present. -/
def findFieldTs (n : String) : List Field → Option Int
  | [] => none
  | f :: fs => if f.name = n then some f.last_timestamp else findFieldTs n fs

/-- The timestamps contributed for name `n` by a list of candidate fields. -/
def fieldTsList (n : String) (l : List Field) : List Int :=
  l.filterMap (fun f => if f.name = n then some f.last_timestamp else none)

/-- Strict ascending order by field name (spec §3 FieldList invariant). -/
def FieldsSorted (fs : List Field) : Prop :=
  List.Pairwise (fun a b => a.name < b.name) fs

/-- One plan result refines another when the projected schema is identical
and the batches are a permutation of each other. -/
def PlanResultPerm (a b : PlanResult) : Prop :=
  a.1 = b.1 ∧ a.2.Perm b.2

/-- Subset relation on optional half-open timestamp ranges (`none` is the
unbounded range). -/
def rangeSubset : Option (Int × Int) → Option (Int × Int) → Prop
  | _, none => True
  | none, some _ => False
  | some (s2, e2), some (s1, e1) => s1 ≤ s2 ∧ e2 ≤ e1

/-- Tag set used by the two-measurements scenario rows. -/
def bostonTags (st : String) : List (String × String) :=
  [("state", st), ("city", "Boston")]

/-- Modelled from the spec: first fragment of table `h2o` of the
`TwoMeasurementsManyFields` scenario (scenario setup absent from `src/`),
per spec §8 scenario A and the expected outputs of the tests. -/
def h2oChunk1 : Chunk :=
  { fieldSchema := [("other_temp", .float), ("temp", .float)]
    rows :=
      [ { tags := bostonTags "MA",
          fields := [("temp", some (.vfloat 704 1))], time := 50 }
      , { tags := bostonTags "MA",
          fields := [("other_temp", some (.vfloat 704 1))], time := 250 }
      , { tags := bostonTags "CA",
          fields := [("other_temp", some (.vfloat 724 1))], time := 350 } ] }

/-- Modelled from the spec: second fragment of table `h2o` of the
`TwoMeasurementsManyFields` scenario (absent from `src/`). -/
def h2oChunk2 : Chunk :=
  { fieldSchema := [("moisture", .float), ("temp", .float)]
    rows :=
      [ { tags := bostonTags "MA",
          fields := [("moisture", some (.vfloat 43 0)),
                     ("temp", some (.vfloat 704 1))], time := 100000 } ] }

/-- Modelled from the spec: the `o2` table of the
`TwoMeasurementsManyFields` scenario (absent from `src/`). -/
def o2Chunk : Chunk :=
  { fieldSchema := [("reading", .float), ("temp", .float)]
    rows :=
      [ { tags := bostonTags "MA",
          fields := [("reading", some (.vfloat 51 0)),
                     ("temp", some (.vfloat 534 1))], time := 50 } ] }

/-- Modelled from the spec: the `TwoMeasurementsManyFields` database,
table `h2o` spanning two fragments plus table `o2` (absent from `src/`). -/
def twoMeasurementsDb : Database :=
  [ ⟨"h2o", [h2oChunk1, h2oChunk2]⟩, ⟨"o2", [o2Chunk]⟩ ]

/-- The same logical contents as `twoMeasurementsDb` with table `h2o`
collapsed into a single fragment (an alternative physical arrangement). -/
def twoMeasurementsDbOneChunk : Database :=
  [ ⟨"h2o", [⟨[("moisture", .float), ("other_temp", .float), ("temp", .float)],
             h2oChunk2.rows ++ h2oChunk1.rows⟩]⟩
  , ⟨"o2", [o2Chunk]⟩ ]

/-- Modelled from the spec: the `OneMeasurementManyFields` scenario of
spec §8 scenario C (absent from `src/`): one table, one row at time=100
with `field1=70.5, field2="ss", field3=2, field4=null`; `field4` is
schema-declared but unpopulated. -/
def oneMeasurementRow : Row :=
  { tags := [("tag1", "foo"), ("tag2", "bar")]
    fields := [("field1", some (.vfloat 705 1)),
               ("field2", some (.vstr "ss")),
               ("field3", some (.vint 2)),
               ("field4", none)]
    time := 100 }

/-- Modelled from the spec: the `OneMeasurementManyFields` database
(absent from `src/`). -/
def oneMeasurementDb : Database :=
  [ ⟨"h2o",
     [ { fieldSchema := [("field1", .float), ("field2", .string),
                         ("field3", .integer), ("field4", .boolean)]
         rows := [oneMeasurementRow] } ] ⟩ ]

/-- Predicate of scenario A: table `h2o`, tag filter `state = MA`. -/
def predStateMA : Predicate :=
  ⟨some "h2o", [.tagEq "state" "MA"], none⟩

/-- Predicate of scenario B: measurement equality `_measurement = h2o`. -/
def predMeasurementH2o : Predicate :=
  ⟨none, [.measurementEq "h2o"], none⟩

/-- Predicate with table `h2o`, `state = MA`, timestamp range [200,300). -/
def predStateMATs : Predicate :=
  ⟨some "h2o", [.tagEq "state" "MA"], some (200, 300)⟩

/-- Predicate with only the timestamp range [0,200) (scenario C). -/
def predRange0200 : Predicate :=
  ⟨none, [], some (0, 200)⟩

/-- Predicate of scenario D: a non-existent table name plus a tag filter. -/
def predNoSuchTable : Predicate :=
  ⟨some "NoSuchTable", [.tagEq "state" "MA"], none⟩

/-! ### Basic lemmas about the optional-maximum reduction -/

theorem optMax_none_right (a : Option Int) : optMax a none = a := by
  cases a <;> rfl

theorem optMax_assoc (a b c : Option Int) :
    optMax (optMax a b) c = optMax a (optMax b c) := by
  cases a <;> cases b <;> cases c <;> simp [optMax, max_assoc]

theorem optMax_comm (a b : Option Int) : optMax a b = optMax b a := by
  cases a <;> cases b <;> simp [optMax, max_comm]

theorem maxTs_append (l1 l2 : List Int) :
    maxTs (l1 ++ l2) = optMax (maxTs l1) (maxTs l2) := by
  induction l1 with
  | nil => rfl
  | cons t ts ih => simp [maxTs, List.cons_append, ih, optMax_assoc]

theorem maxTs_perm {l1 l2 : List Int} (h : l1.Perm l2) :
    maxTs l1 = maxTs l2 := by
  induction h with
  | nil => rfl
  | cons x _ ih => simp [maxTs, ih]
  | swap x y l =>
      simp only [maxTs]
      cases maxTs l <;>
        simp [optMax, max_left_comm, max_comm]
  | trans _ _ ih1 ih2 => rw [ih1, ih2]

theorem maxTs_mem {l : List Int} {m : Int} (h : maxTs l = some m) : m ∈ l := by
  induction l with
  | nil => simp [maxTs] at h
  | cons t ts ih =>
      simp only [maxTs] at h
      cases hts : maxTs ts with
      | none =>
          rw [hts, optMax_none_right] at h
          simp at h
          simp [h]
      | some m' =>
          rw [hts] at h
          simp [optMax] at h
          rcases le_total t m' with hle | hle
          · rw [max_eq_right hle] at h
            exact List.mem_cons_of_mem _ (ih (by rw [hts, h]))
          · rw [max_eq_left hle] at h
            simp [h]

theorem le_maxTs {l : List Int} {x : Int} (h : x ∈ l) :
    ∃ m, maxTs l = some m ∧ x ≤ m := by
  induction l with
  | nil => simp at h
  | cons t ts ih =>
      rcases List.mem_cons.mp h with rfl | hmem
      · cases hts : maxTs ts with
        | none => exact ⟨x, by simp [maxTs, hts, optMax], le_refl x⟩
        | some m' => exact ⟨max x m', by simp [maxTs, hts, optMax], le_max_left _ _⟩
      · obtain ⟨m', hm', hle⟩ := ih hmem
        exact ⟨max t m', by simp [maxTs, hm', optMax],
               le_trans hle (le_max_right _ _)⟩

/-! ### Lemmas about `flat` and association-list lookup -/

theorem mem_flat {α : Type} {x : α} {l : List (List α)} :
    x ∈ flat l ↔ ∃ b ∈ l, x ∈ b := by
  induction l with
  | nil => simp [flat]
  | cons b bs ih => simp [flat, List.mem_append, ih]

theorem flat_perm {α : Type} {l1 l2 : List (List α)} (h : l1.Perm l2) :
    (flat l1).Perm (flat l2) := by
  induction h with
  | nil => exact List.Perm.refl _
  | cons x _ ih => exact ih.append_left x
  | swap x y l =>
      show (y ++ (x ++ flat l)).Perm (x ++ (y ++ flat l))
      rw [← List.append_assoc, ← List.append_assoc]
      exact (List.perm_append_comm).append_right _
  | trans _ _ ih1 ih2 => exact ih1.trans ih2

theorem flat_singleton {α : Type} (b : List α) : flat [b] = b := by
  simp [flat]

theorem alookup_mem {α : Type} {n : String} {v : α} :
    ∀ {l : List (String × α)}, alookup n l = some v → (n, v) ∈ l := by
  intro l
  induction l with
  | nil => intro h; simp [alookup] at h
  | cons p ps ih =>
      intro h
      simp only [alookup] at h
      by_cases hp : p.1 = n
      · rw [if_pos hp] at h
        have hpv : p = (n, v) := by
          cases p
          simp at hp h
          simp [hp, h]
        rw [← hpv]
        exact List.mem_cons_self _ _
      · rw [if_neg hp] at h
        exact List.mem_cons_of_mem _ (ih h)

theorem colVal_isSome_mem {r : Row} {n : String}
    (h : (r.colVal n).isSome = true) :
    ∃ w, (n, w) ∈ r.fields ∧ w.isSome = true := by
  unfold Row.colVal at h
  cases hl : alookup n r.fields with
  | none => rw [hl] at h; simp at h
  | some w =>
      rw [hl] at h
      exact ⟨w, alookup_mem hl, h⟩

/-! ### Folds with a commuting step are permutation-invariant -/

theorem foldl_perm_of_comm {α β : Type} {f : β → α → β}
    (hc : ∀ b a a', f (f b a) a' = f (f b a') a)
    {l1 l2 : List α} (h : l1.Perm l2) : ∀ b, l1.foldl f b = l2.foldl f b := by
  induction h with
  | nil => intro b; rfl
  | cons x _ ih => intro b; simp only [List.foldl_cons]; exact ih _
  | swap x y l => intro b; simp only [List.foldl_cons]; rw [hc]
  | trans _ _ ih1 ih2 => intro b; rw [ih1, ih2]

/-! ### Reduction lemmas for `Except` -/

theorem except_bind_ok {ε α β : Type} (a : α) (k : α → Except ε β) :
    ((Except.ok a : Except ε α) >>= k) = k a := rfl

theorem except_bind_error {ε α β : Type} (e : ε) (k : α → Except ε β) :
    ((Except.error e : Except ε α) >>= k) = Except.error e := rfl

theorem except_map_ok {ε α β : Type} (h : α → β) (a : α) :
    (Except.ok a : Except ε α).map h = Except.ok (h a) := rfl

theorem except_map_error {ε α β : Type} (h : α → β) (e : ε) :
    (Except.error e : Except ε α).map h = (Except.error e : Except ε β) := rfl

theorem foldl_bind_error {α β ε : Type} (g : β → α → Except ε α)
    {l : List β} {e : ε} :
    l.foldl (fun acc f => acc >>= g f) (Except.error e : Except ε α) =
      Except.error e := by
  induction l with
  | nil => rfl
  | cons f fs ih => simpa [except_bind_error] using ih

theorem optMax_left_comm (a b c : Option Int) :
    optMax a (optMax b c) = optMax b (optMax a c) := by
  cases a <;> cases b <;> cases c <;> simp [optMax, max_left_comm, max_comm]

/-! ### Lemmas about the sorted field merge -/

theorem findFieldTs_eq_none {n : String} {xs : List Field}
    (h : ∀ x ∈ xs, x.name ≠ n) : findFieldTs n xs = none := by
  induction xs with
  | nil => rfl
  | cons x t ih =>
      simp only [findFieldTs]
      rw [if_neg (h x (List.mem_cons_self _ _))]
      exact ih (fun y hy => h y (List.mem_cons_of_mem _ hy))

theorem insertField_names {f : Field} :
    ∀ {xs ys : List Field}, insertField f xs = .ok ys →
      ∀ y ∈ ys, y.name = f.name ∨ ∃ x ∈ xs, y.name = x.name := by
  intro xs
  induction xs with
  | nil =>
      intro ys h y hy
      simp only [insertField] at h
      cases h
      simp at hy
      simp [hy]
  | cons g gs ih =>
      intro ys h y hy
      simp only [insertField] at h
      by_cases h1 : f.name < g.name
      · rw [if_pos h1] at h
        cases h
        rcases List.mem_cons.mp hy with rfl | hy'
        · exact Or.inl rfl
        · exact Or.inr ⟨y, hy', rfl⟩
      · rw [if_neg h1] at h
        by_cases h2 : f.name = g.name
        · rw [if_pos h2] at h
          by_cases h3 : f.data_type = g.data_type
          · rw [if_pos h3] at h
            cases h
            rcases List.mem_cons.mp hy with rfl | hy'
            · exact Or.inr ⟨g, List.mem_cons_self _ _, rfl⟩
            · exact Or.inr ⟨y, List.mem_cons_of_mem _ hy', rfl⟩
          · rw [if_neg h3] at h
            cases h
        · rw [if_neg h2] at h
          cases hrec : insertField f gs with
          | error e => rw [hrec, except_map_error] at h; cases h
          | ok gs' =>
              rw [hrec, except_map_ok] at h
              cases h
              rcases List.mem_cons.mp hy with rfl | hy'
              · exact Or.inr ⟨y, List.mem_cons_self _ _, rfl⟩
              · rcases ih hrec y hy' with hl | ⟨x, hx, hxn⟩
                · exact Or.inl hl
                · exact Or.inr ⟨x, List.mem_cons_of_mem _ hx, hxn⟩

theorem insertField_sorted {f : Field} :
    ∀ {xs ys : List Field}, FieldsSorted xs → insertField f xs = .ok ys →
      FieldsSorted ys := by
  intro xs
  induction xs with
  | nil =>
      intro ys _ h
      cases h
      exact List.pairwise_singleton _ _
  | cons g gs ih =>
      intro ys hs h
      rcases List.pairwise_cons.mp hs with ⟨hg, hgs⟩
      simp only [insertField] at h
      by_cases h1 : f.name < g.name
      · rw [if_pos h1] at h
        cases h
        exact List.pairwise_cons.mpr
          ⟨fun b hb => by
            rcases List.mem_cons.mp hb with rfl | hb'
            · exact h1
            · exact lt_trans h1 (hg b hb'), hs⟩
      · rw [if_neg h1] at h
        by_cases h2 : f.name = g.name
        · rw [if_pos h2] at h
          by_cases h3 : f.data_type = g.data_type
          · rw [if_pos h3] at h
            cases h
            exact List.pairwise_cons.mpr ⟨fun b hb => hg b hb, hgs⟩
          · rw [if_neg h3] at h
            cases h
        · rw [if_neg h2] at h
          cases hrec : insertField f gs with
          | error e => rw [hrec, except_map_error] at h; cases h
          | ok gs' =>
              rw [hrec, except_map_ok] at h
              cases h
              have hgf : g.name < f.name :=
                (lt_trichotomy f.name g.name).resolve_left h1 |>.resolve_left h2
              exact List.pairwise_cons.mpr
                ⟨fun b hb => by
                  rcases insertField_names hrec b hb with hbf | ⟨x, hx, hxn⟩
                  · rw [hbf]; exact hgf
                  · rw [hxn]; exact hg x hx,
                 ih hgs hrec⟩

theorem insertField_ts {f : Field} {n : String} :
    ∀ {xs ys : List Field}, FieldsSorted xs → insertField f xs = .ok ys →
      findFieldTs n ys =
        if f.name = n then optMax (some f.last_timestamp) (findFieldTs n xs)
        else findFieldTs n xs := by
  intro xs
  induction xs with
  | nil =>
      intro ys _ h
      cases h
      by_cases hn : f.name = n
      · simp [findFieldTs, hn, optMax]
      · simp [findFieldTs, hn]
  | cons g gs ih =>
      intro ys hs h
      rcases List.pairwise_cons.mp hs with ⟨hg, hgs⟩
      simp only [insertField] at h
      by_cases h1 : f.name < g.name
      · rw [if_pos h1] at h
        cases h
        by_cases hn : f.name = n
        · have hgn : g.name ≠ n := fun he => absurd (hn ▸ he ▸ h1) (lt_irrefl _)
          have hrest : findFieldTs n gs = none :=
            findFieldTs_eq_none (fun x hx => fun he =>
              absurd (hn ▸ he ▸ lt_trans h1 (hg x hx)) (lt_irrefl _))
          simp [findFieldTs, hn, hgn, hrest, optMax]
        · simp [findFieldTs, hn]
      · rw [if_neg h1] at h
        by_cases h2 : f.name = g.name
        · rw [if_pos h2] at h
          by_cases h3 : f.data_type = g.data_type
          · rw [if_pos h3] at h
            cases h
            by_cases hn : g.name = n
            · have hfn : f.name = n := h2.trans hn
              simp [findFieldTs, hn, hfn, optMax, max_comm]
            · have hfn : f.name ≠ n := fun he => hn (h2 ▸ he)
              simp [findFieldTs, hn, hfn]
          · rw [if_neg h3] at h
            cases h
        · rw [if_neg h2] at h
          cases hrec : insertField f gs with
          | error e => rw [hrec, except_map_error] at h; cases h
          | ok gs' =>
              rw [hrec, except_map_ok] at h
              cases h
              have hgf : g.name < f.name :=
                (lt_trichotomy f.name g.name).resolve_left h1 |>.resolve_left h2
              have ihe := ih hgs hrec
              by_cases hn : f.name = n
              · have hgn : g.name ≠ n := fun he => absurd (hn ▸ he ▸ hgf) (lt_irrefl _)
                simp [findFieldTs, hn, hgn] at ihe ⊢
                exact ihe
              · by_cases hgn : g.name = n
                · simp [findFieldTs, hn, hgn] at ihe ⊢
                · simp [findFieldTs, hn, hgn] at ihe ⊢
                  exact ihe

theorem mergeFields_aux_sorted :
    ∀ {l xs out : List Field}, FieldsSorted xs →
      l.foldl (fun acc f => acc >>= insertField f) (.ok xs) = .ok out →
      FieldsSorted out := by
  intro l
  induction l with
  | nil =>
      intro xs out hs h
      cases h
      exact hs
  | cons f t ih =>
      intro xs out hs h
      rw [List.foldl_cons, except_bind_ok] at h
      cases hrec : insertField f xs with
      | error e => rw [hrec] at h; rw [foldl_bind_error] at h; cases h
      | ok xs' =>
          rw [hrec] at h
          exact ih (insertField_sorted hs hrec) h

theorem mergeFields_sorted {l out : List Field}
    (h : mergeFields l = .ok out) : FieldsSorted out :=
  mergeFields_aux_sorted List.Pairwise.nil h

theorem mergeFields_aux_ts {n : String} :
    ∀ {l xs out : List Field}, FieldsSorted xs →
      l.foldl (fun acc f => acc >>= insertField f) (.ok xs) = .ok out →
      findFieldTs n out = optMax (findFieldTs n xs) (maxTs (fieldTsList n l)) := by
  intro l
  induction l with
  | nil =>
      intro xs out hs h
      cases h
      simp [fieldTsList, maxTs, optMax_none_right]
  | cons f t ih =>
      intro xs out hs h
      rw [List.foldl_cons, except_bind_ok] at h
      cases hrec : insertField f xs with
      | error e => rw [hrec] at h; rw [foldl_bind_error] at h; cases h
      | ok xs' =>
          rw [hrec] at h
          have ihe := ih (insertField_sorted hs hrec) h
          have hts := insertField_ts (n := n) hs hrec
          by_cases hn : f.name = n
          · rw [if_pos hn] at hts
            rw [ihe, hts]
            have : fieldTsList n (f :: t) = f.last_timestamp :: fieldTsList n t := by
              simp [fieldTsList, List.filterMap_cons, hn]
            rw [this]
            show optMax (optMax (some f.last_timestamp) (findFieldTs n xs))
                   (maxTs (fieldTsList n t)) =
                 optMax (findFieldTs n xs)
                   (optMax (some f.last_timestamp) (maxTs (fieldTsList n t)))
            rw [optMax_assoc, optMax_left_comm]
          · rw [if_neg hn] at hts
            rw [ihe, hts]
            have : fieldTsList n (f :: t) = fieldTsList n t := by
              simp [fieldTsList, List.filterMap_cons, hn]
            rw [this]

theorem mergeFields_ts {l out : List Field} (h : mergeFields l = .ok out)
    (n : String) : findFieldTs n out = maxTs (fieldTsList n l) := by
  have := mergeFields_aux_ts (n := n) List.Pairwise.nil h
  simpa [findFieldTs, optMax] using this

/-! ### Commutativity of the field merge -/

theorem insertField_cons_head {g x : Field} {t ys : List Field}
    (h : insertField g (x :: t) = .ok ys) :
    ∃ y0 ys', ys = y0 :: ys' ∧ (y0 = g ∨ y0.name = x.name) := by
  simp only [insertField] at h
  by_cases h1 : g.name < x.name
  · rw [if_pos h1] at h
    cases h
    exact ⟨g, x :: t, rfl, Or.inl rfl⟩
  · rw [if_neg h1] at h
    by_cases h2 : g.name = x.name
    · rw [if_pos h2] at h
      by_cases h3 : g.data_type = x.data_type
      · rw [if_pos h3] at h
        cases h
        exact ⟨_, t, rfl, Or.inr rfl⟩
      · rw [if_neg h3] at h
        cases h
    · rw [if_neg h2] at h
      cases hrec : insertField g t with
      | error e => rw [hrec, except_map_error] at h; cases h
      | ok gs' =>
          rw [hrec, except_map_ok] at h
          cases h
          exact ⟨x, gs', rfl, Or.inr rfl⟩

theorem insertField_lt {f x : Field} {t : List Field} (h : f.name < x.name) :
    insertField f (x :: t) = .ok (f :: x :: t) := by
  simp only [insertField]
  rw [if_pos h]

theorem insertField_eq_ok {f x : Field} {t : List Field}
    (hn : f.name = x.name) (hd : f.data_type = x.data_type) :
    insertField f (x :: t) =
      .ok (⟨x.name, x.data_type,
            max f.last_timestamp x.last_timestamp⟩ :: t) := by
  simp only [insertField]
  rw [if_neg (fun hc => absurd (hn ▸ hc) (lt_irrefl _)), if_pos hn, if_pos hd]

theorem insertField_eq_err {f x : Field} {t : List Field}
    (hn : f.name = x.name) (hd : f.data_type ≠ x.data_type) :
    insertField f (x :: t) = .error .typeConflict := by
  simp only [insertField]
  rw [if_neg (fun hc => absurd (hn ▸ hc) (lt_irrefl _)), if_pos hn, if_neg hd]

theorem insertField_gt {f x : Field} {t : List Field} (h : x.name < f.name) :
    insertField f (x :: t) = (insertField f t).map (fun ys => x :: ys) := by
  simp only [insertField]
  rw [if_neg (asymm h), if_neg h.ne']

theorem insertField_comm (f g : Field) :
    ∀ xs : List Field,
      (insertField f xs >>= insertField g) =
      (insertField g xs >>= insertField f) := by
  intro xs
  induction xs with
  | nil =>
      show insertField g [f] = insertField f [g]
      rcases lt_trichotomy f.name g.name with hlt | heq | hgt
      · rw [insertField_gt hlt, insertField_lt hlt]
        rfl
      · by_cases hdt : f.data_type = g.data_type
        · rw [insertField_eq_ok heq.symm hdt.symm, insertField_eq_ok heq hdt,
              heq, hdt, max_comm]
        · rw [insertField_eq_err heq.symm (fun h => hdt h.symm),
              insertField_eq_err heq hdt]
      · rw [insertField_lt hgt, insertField_gt hgt]
        rfl
  | cons x t ih =>
      rcases lt_trichotomy f.name x.name with hfx | hfx | hfx
      · -- f goes in front of x
        rw [insertField_lt hfx, except_bind_ok]
        rcases lt_trichotomy g.name f.name with hgf | hgf | hgf
        · rw [insertField_lt hgf, insertField_lt (lt_trans hgf hfx),
              except_bind_ok, insertField_gt hgf, insertField_lt hfx,
              except_map_ok]
        · by_cases hdt : g.data_type = f.data_type
          · rw [insertField_eq_ok hgf hdt,
                insertField_lt (show g.name < x.name by rw [hgf]; exact hfx),
                except_bind_ok, insertField_eq_ok hgf.symm hdt.symm,
                hgf, hdt, max_comm]
          · rw [insertField_eq_err hgf hdt,
                insertField_lt (show g.name < x.name by rw [hgf]; exact hfx),
                except_bind_ok,
                insertField_eq_err hgf.symm (fun h => hdt h.symm)]
        · rw [insertField_gt hgf]
          cases hg : insertField g (x :: t) with
          | error e => simp only [except_map_error, except_bind_error]
          | ok ys =>
              simp only [except_map_ok, except_bind_ok]
              obtain ⟨y0, ys', rfl, hy0⟩ := insertField_cons_head hg
              have hfy : f.name < y0.name := by
                rcases hy0 with rfl | hx
                · exact hgf
                · rw [hx]; exact hfx
              rw [insertField_lt hfy]
      · -- f has the same name as x
        by_cases hdt : f.data_type = x.data_type
        · rw [insertField_eq_ok hfx hdt, except_bind_ok]
          rcases lt_trichotomy g.name x.name with hgx | hgx | hgx
          · rw [insertField_lt (x := ⟨x.name, x.data_type,
                  max f.last_timestamp x.last_timestamp⟩) hgx,
                insertField_lt hgx, except_bind_ok,
                insertField_gt (show g.name < f.name by rw [hfx]; exact hgx),
                insertField_eq_ok hfx hdt, except_map_ok]
          · by_cases hdt2 : g.data_type = x.data_type
            · rw [insertField_eq_ok (x := ⟨x.name, x.data_type,
                    max f.last_timestamp x.last_timestamp⟩) hgx hdt2,
                  insertField_eq_ok hgx hdt2, except_bind_ok,
                  insertField_eq_ok (x := ⟨x.name, x.data_type,
                    max g.last_timestamp x.last_timestamp⟩) hfx hdt]
              simp [max_left_comm]
            · rw [insertField_eq_err (x := ⟨x.name, x.data_type,
                    max f.last_timestamp x.last_timestamp⟩) hgx hdt2,
                  insertField_eq_err hgx hdt2, except_bind_error]
          · rw [insertField_gt (x := ⟨x.name, x.data_type,
                  max f.last_timestamp x.last_timestamp⟩) hgx,
                insertField_gt hgx]
            cases hg : insertField g t with
            | error e =>
                simp only [except_map_error, except_bind_error]
            | ok ys =>
                simp only [except_map_ok, except_bind_ok]
                rw [insertField_eq_ok hfx hdt]
        · rw [insertField_eq_err hfx hdt, except_bind_error]
          rcases lt_trichotomy g.name x.name with hgx | hgx | hgx
          · rw [insertField_lt hgx, except_bind_ok,
                insertField_gt (show g.name < f.name by rw [hfx]; exact hgx),
                insertField_eq_err hfx hdt, except_map_error]
          · by_cases hdt2 : g.data_type = x.data_type
            · rw [insertField_eq_ok hgx hdt2, except_bind_ok,
                  insertField_eq_err (x := ⟨x.name, x.data_type,
                    max g.last_timestamp x.last_timestamp⟩) hfx hdt]
            · rw [insertField_eq_err hgx hdt2, except_bind_error]
          · rw [insertField_gt hgx]
            cases hg : insertField g t with
            | error e => simp only [except_map_error, except_bind_error]
            | ok ys =>
                simp only [except_map_ok, except_bind_ok]
                rw [insertField_eq_err hfx hdt]
      · -- x stays in front of f
        rw [insertField_gt hfx]
        rcases lt_trichotomy g.name x.name with hgx | hgx | hgx
        · rw [insertField_lt hgx, except_bind_ok,
              insertField_gt (lt_trans hgx hfx), insertField_gt hfx]
          cases hf : insertField f t with
          | error e =>
              simp only [except_map_error, except_bind_error]
          | ok ys =>
              simp only [except_map_ok, except_bind_ok]
              rw [insertField_lt hgx]
        · by_cases hdt2 : g.data_type = x.data_type
          · rw [insertField_eq_ok hgx hdt2, except_bind_ok,
                insertField_gt (x := ⟨x.name, x.data_type,
                  max g.last_timestamp x.last_timestamp⟩) hfx]
            cases hf : insertField f t with
            | error e =>
                simp only [except_map_error, except_bind_error]
            | ok ys =>
                simp only [except_map_ok, except_bind_ok]
                rw [insertField_eq_ok hgx hdt2]
          · rw [insertField_eq_err hgx hdt2, except_bind_error]
            cases hf : insertField f t with
            | error e => simp only [except_map_error, except_bind_error]
            | ok ys =>
                simp only [except_map_ok, except_bind_ok]
                rw [insertField_eq_err hgx hdt2]
        · -- both past x: use the induction hypothesis
          rw [insertField_gt hgx]
          have lhs : ((insertField f t).map (fun ys => x :: ys) >>=
              insertField g) =
              (insertField f t >>= insertField g).map (fun ys => x :: ys) := by
            cases hf : insertField f t with
            | error e =>
                simp only [except_map_error, except_bind_error]
            | ok ys =>
                simp only [except_map_ok, except_bind_ok]
                rw [insertField_gt hgx]
          have rhs : ((insertField g t).map (fun ys => x :: ys) >>=
              insertField f) =
              (insertField g t >>= insertField f).map (fun ys => x :: ys) := by
            cases hg : insertField g t with
            | error e =>
                simp only [except_map_error, except_bind_error]
            | ok ys =>
                simp only [except_map_ok, except_bind_ok]
                rw [insertField_gt hfx]
          rw [lhs, rhs, ih]

theorem mergeStep_comm (acc : Except AggError (List Field)) (f g : Field) :
    ((acc >>= insertField f) >>= insertField g) =
    ((acc >>= insertField g) >>= insertField f) := by
  cases acc with
  | error e => rfl
  | ok xs =>
      rw [except_bind_ok, except_bind_ok]
      exact insertField_comm f g xs

theorem mergeFields_perm {l1 l2 : List Field} (h : l1.Perm l2) :
    mergeFields l1 = mergeFields l2 :=
  foldl_perm_of_comm (fun b a a' => mergeStep_comm b a a') h _

theorem planFields_batches_perm {cols : List (String × DataType)}
    {b1 b2 : List (List Row)} (h : b1.Perm b2) :
    planFields cols b1 = planFields cols b2 := by
  have hts : ∀ c : String × DataType,
      maxTs (nonNullTimes c.1 (flat b1)) = maxTs (nonNullTimes c.1 (flat b2)) :=
    fun c => maxTs_perm ((flat_perm h).filterMap _)
  simp only [planFields, hts]

theorem map_eq_of_forall2 {α β : Type} {f : α → β} {l1 l2 : List α}
    (h : List.Forall₂ (fun a b => f a = f b) l1 l2) : l1.map f = l2.map f := by
  induction h with
  | nil => rfl
  | cons hab _ ih => simp only [List.map_cons, hab, ih]

/-! ### Lemmas about the schema merge and the planner -/

theorem insertCol_names {c : String × DataType} :
    ∀ {xs ys : List (String × DataType)}, insertCol c xs = .ok ys →
      c.1 ∈ ys.map Prod.fst ∧
        ∀ m ∈ xs.map Prod.fst, m ∈ ys.map Prod.fst := by
  intro xs
  induction xs with
  | nil =>
      intro ys h
      cases h
      exact ⟨List.mem_map_of_mem _ (List.mem_singleton_self _), by simp⟩
  | cons d ds ih =>
      intro ys h
      simp only [insertCol] at h
      by_cases h1 : c.1 < d.1
      · rw [if_pos h1] at h
        cases h
        constructor
        · simp
        · intro m hm
          simp only [List.map_cons, List.mem_cons] at hm ⊢
          tauto
      · rw [if_neg h1] at h
        by_cases h2 : c.1 = d.1
        · rw [if_pos h2] at h
          by_cases h3 : c.2 = d.2
          · rw [if_pos h3] at h
            cases h
            exact ⟨by simp [h2], fun m hm => hm⟩
          · rw [if_neg h3] at h
            cases h
        · rw [if_neg h2] at h
          cases hrec : insertCol c ds with
          | error e => rw [hrec, except_map_error] at h; cases h
          | ok ds' =>
              rw [hrec, except_map_ok] at h
              cases h
              obtain ⟨hc, hsup⟩ := ih hrec
              constructor
              · exact List.mem_cons_of_mem _ hc
              · intro m hm
                simp only [List.map_cons, List.mem_cons] at hm ⊢
                rcases hm with rfl | hm
                · exact Or.inl rfl
                · exact Or.inr (hsup m hm)

theorem mergedSchema_aux_names :
    ∀ {l xs out : List (String × DataType)},
      l.foldl (fun acc c => acc >>= insertCol c) (.ok xs) = .ok out →
      (∀ c ∈ l, c.1 ∈ out.map Prod.fst) ∧
        ∀ m ∈ xs.map Prod.fst, m ∈ out.map Prod.fst := by
  intro l
  induction l with
  | nil =>
      intro xs out h
      cases h
      exact ⟨by simp, fun m hm => hm⟩
  | cons c t ih =>
      intro xs out h
      rw [List.foldl_cons, except_bind_ok] at h
      cases hrec : insertCol c xs with
      | error e => rw [hrec] at h; rw [foldl_bind_error] at h; cases h
      | ok xs' =>
          rw [hrec] at h
          obtain ⟨hmem, hsup⟩ := ih h
          obtain ⟨hc, hsup'⟩ := insertCol_names hrec
          refine ⟨?_, fun m hm => hsup m (hsup' m hm)⟩
          intro c' hc'
          rcases List.mem_cons.mp hc' with rfl | hc'
          · exact hsup _ hc
          · exact hmem c' hc'

theorem mergedSchema_names {chunks : List Chunk}
    {cols : List (String × DataType)} (h : mergedSchema chunks = .ok cols) :
    ∀ ch ∈ chunks, ∀ m ∈ ch.fieldSchema.map Prod.fst,
      m ∈ cols.map Prod.fst := by
  intro ch hch m hm
  obtain ⟨⟨m', ty⟩, hmem, hfst⟩ := List.mem_map.mp hm
  subst hfst
  have hflat : (m', ty) ∈ flat (chunks.map Chunk.fieldSchema) :=
    mem_flat.mpr ⟨ch.fieldSchema, List.mem_map_of_mem _ hch, hmem⟩
  exact (mergedSchema_aux_names h).1 _ hflat

theorem findTable_mem :
    ∀ {db : Database} {n : String} {t : Table},
      findTable db n = some t → t ∈ db ∧ t.name = n := by
  intro db
  induction db with
  | nil => intro n t h; cases h
  | cons tb tbs ih =>
      intro n t h
      simp only [findTable] at h
      by_cases h1 : tb.name = n
      · rw [if_pos h1] at h
        cases h
        exact ⟨List.mem_cons_self _ _, h1⟩
      · rw [if_neg h1] at h
        obtain ⟨hm, hn⟩ := ih h
        exact ⟨List.mem_cons_of_mem _ hm, hn⟩

theorem findTable_none :
    ∀ {db : Database} {n : String},
      n ∈ tableNames db → findTable db n ≠ none := by
  intro db
  induction db with
  | nil => intro n h; simp [tableNames] at h
  | cons tb tbs ih =>
      intro n h
      simp only [tableNames, List.map_cons, List.mem_cons] at h
      simp only [findTable]
      by_cases h1 : tb.name = n
      · rw [if_pos h1]; exact fun hc => Option.noConfusion hc
      · rw [if_neg h1]
        rcases h with h | h
        · exact absurd h.symm h1
        · exact ih (by simpa [tableNames] using h)

theorem findTable_not_mem :
    ∀ {db : Database} {n : String},
      n ∉ tableNames db → findTable db n = none := by
  intro db
  induction db with
  | nil => intro n _; rfl
  | cons tb tbs ih =>
      intro n h
      simp only [tableNames, List.map_cons, List.mem_cons] at h
      push_neg at h
      simp only [findTable]
      rw [if_neg (fun hc => h.1 hc.symm)]
      exact ih (by simp [tableNames, h.2])

theorem buildPlan_some {db : Database} {pred : Predicate} {tname : String}
    {pl : LogicalPlan} (h : buildPlan db pred tname = .ok (some pl)) :
    ∃ tb cols, findTable db tname = some tb ∧
      mergedSchema tb.chunks = .ok cols ∧ cols.isEmpty = false ∧
      pl = ⟨tname, cols, pred.row_filter_terms, pred.range⟩ := by
  unfold buildPlan at h
  cases hft : findTable db tname with
  | none => rw [hft] at h; cases h
  | some tb =>
      rw [hft] at h
      replace h : (mergedSchema tb.chunks).map (fun cols =>
          if cols.isEmpty then none
          else some (⟨tname, cols, pred.row_filter_terms, pred.range⟩ :
            LogicalPlan)) = Except.ok (some pl) := h
      cases hms : mergedSchema tb.chunks with
      | error e => rw [hms, except_map_error] at h; cases h
      | ok cols =>
          rw [hms, except_map_ok] at h
          cases hemp : cols.isEmpty with
          | true => rw [if_pos hemp] at h; cases h
          | false =>
              rw [if_neg (by rw [hemp]; exact Bool.false_ne_true)] at h
              cases h
              exact ⟨tb, cols, rfl, hms, hemp, rfl⟩

theorem buildPlan_none {db : Database} {pred : Predicate} {tname : String}
    (h : buildPlan db pred tname = .ok none) :
    findTable db tname = none ∨
      ∃ tb cols, findTable db tname = some tb ∧
        mergedSchema tb.chunks = .ok cols ∧ cols.isEmpty = true := by
  unfold buildPlan at h
  cases hft : findTable db tname with
  | none => exact Or.inl rfl
  | some tb =>
      rw [hft] at h
      replace h : (mergedSchema tb.chunks).map (fun cols =>
          if cols.isEmpty then none
          else some (⟨tname, cols, pred.row_filter_terms, pred.range⟩ :
            LogicalPlan)) = Except.ok none := h
      cases hms : mergedSchema tb.chunks with
      | error e => rw [hms, except_map_error] at h; cases h
      | ok cols =>
          rw [hms, except_map_ok] at h
          cases hemp : cols.isEmpty with
          | true => exact Or.inr ⟨tb, cols, rfl, hms, hemp⟩
          | false =>
              rw [if_neg (by rw [hemp]; exact Bool.false_ne_true)] at h
              cases h

theorem buildPlans_inv {db : Database} {pred : Predicate} {tn : String}
    {ts : List String} {plans : List LogicalPlan}
    (h : buildPlans db pred (tn :: ts) = .ok plans) :
    ∃ op rest, buildPlan db pred tn = .ok op ∧
      buildPlans db pred ts = .ok rest ∧
      plans = (match op with
               | none => rest
               | some p => p :: rest) := by
  simp only [buildPlans] at h
  cases hb : buildPlan db pred tn with
  | error e => rw [hb, except_bind_error] at h; cases h
  | ok op =>
      rw [hb, except_bind_ok] at h
      cases hr : buildPlans db pred ts with
      | error e => rw [hr, except_bind_error] at h; cases h
      | ok rest =>
          rw [hr, except_bind_ok] at h
          cases h
          exact ⟨op, rest, rfl, rfl, rfl⟩

theorem buildPlans_mem {db : Database} {pred : Predicate} :
    ∀ {cands : List String} {plans : List LogicalPlan},
      buildPlans db pred cands = .ok plans →
      ∀ pl ∈ plans, pl.filters = pred.row_filter_terms ∧
        pl.range = pred.range := by
  intro cands
  induction cands with
  | nil =>
      intro plans h pl hpl
      cases h
      simp at hpl
  | cons tn ts ih =>
      intro plans h pl hpl
      obtain ⟨op, rest, hb, hr, rfl⟩ := buildPlans_inv h
      cases op with
      | none => exact ih hr pl hpl
      | some p =>
          rcases List.mem_cons.mp hpl with rfl | hpl'
          · obtain ⟨tb, cols, _, _, _, rfl⟩ := buildPlan_some hb
            exact ⟨rfl, rfl⟩
          · exact ih hr pl hpl'

theorem filterMap_nil_of_none {α β : Type} {f : α → Option β} :
    ∀ {l : List α}, (∀ a ∈ l, f a = none) → l.filterMap f = [] := by
  intro l
  induction l with
  | nil => intro _; rfl
  | cons a t ih =>
      intro h
      rw [List.filterMap_cons, h a (List.mem_cons_self _ _)]
      exact ih (fun b hb => h b (List.mem_cons_of_mem _ hb))

theorem fieldTsList_append (n : String) (a b : List Field) :
    fieldTsList n (a ++ b) = fieldTsList n a ++ fieldTsList n b :=
  List.filterMap_append _ _ _

theorem nonNullTimes_append (n : String) (a b : List Row) :
    nonNullTimes n (a ++ b) = nonNullTimes n a ++ nonNullTimes n b :=
  List.filterMap_append _ _ _

theorem planFields_ts (n : String) (rows : List Row) :
    ∀ cols : List (String × DataType),
      maxTs (fieldTsList n (planFields cols [rows])) =
      if n ∈ cols.map Prod.fst then maxTs (nonNullTimes n rows) else none := by
  intro cols
  induction cols with
  | nil => simp [planFields, fieldTsList, maxTs]
  | cons c cs ih =>
      have hfl : flat [rows] = rows := flat_singleton rows
      by_cases hcn : c.1 = n
      · cases hm : maxTs (nonNullTimes c.1 rows) with
        | none =>
            have hpf : planFields (c :: cs) [rows] = planFields cs [rows] := by
              simp [planFields, List.filterMap_cons, hfl, hm]
            rw [hpf, ih]
            have hXn : maxTs (nonNullTimes n rows) = none := by
              rw [← hcn]; exact hm
            simp [hXn]
        | some ts =>
            have hpf : planFields (c :: cs) [rows] =
                ⟨c.1, c.2, ts⟩ :: planFields cs [rows] := by
              simp [planFields, List.filterMap_cons, hfl, hm]
            rw [hpf]
            have hft : fieldTsList n
                ((⟨c.1, c.2, ts⟩ : Field) :: planFields cs [rows]) =
                ts :: fieldTsList n (planFields cs [rows]) := by
              simp [fieldTsList, List.filterMap_cons, hcn]
            rw [hft]
            show optMax (some ts)
                (maxTs (fieldTsList n (planFields cs [rows]))) = _
            rw [ih]
            have hX : maxTs (nonNullTimes n rows) = some ts := by
              rw [← hcn]; exact hm
            by_cases hmem : n ∈ cs.map Prod.fst
            · simp [hmem, hcn, hX, optMax, List.map_cons]
            · simp [hmem, hcn, hX, optMax, List.map_cons]
      · cases hm : maxTs (nonNullTimes c.1 rows) with
        | none =>
            have hpf : planFields (c :: cs) [rows] = planFields cs [rows] := by
              simp [planFields, List.filterMap_cons, hfl, hm]
            rw [hpf, ih]
            have hiff : (n ∈ c.1 :: List.map Prod.fst cs) ↔
                n ∈ List.map Prod.fst cs := by
              constructor
              · intro hmm
                rcases List.mem_cons.mp hmm with he | hmm'
                · exact absurd he.symm hcn
                · exact hmm'
              · exact List.mem_cons_of_mem _
            rw [List.map_cons, if_congr hiff rfl rfl]
        | some ts =>
            have hpf : planFields (c :: cs) [rows] =
                ⟨c.1, c.2, ts⟩ :: planFields cs [rows] := by
              simp [planFields, List.filterMap_cons, hfl, hm]
            have hft : fieldTsList n
                ((⟨c.1, c.2, ts⟩ : Field) :: planFields cs [rows]) =
                fieldTsList n (planFields cs [rows]) := by
              simp [fieldTsList, List.filterMap_cons, hcn]
            rw [hpf, hft, ih]
            have hiff : (n ∈ c.1 :: List.map Prod.fst cs) ↔
                n ∈ List.map Prod.fst cs := by
              constructor
              · intro hmm
                rcases List.mem_cons.mp hmm with he | hmm'
                · exact absurd he.symm hcn
                · exact hmm'
              · exact List.mem_cons_of_mem _
            rw [List.map_cons, if_congr hiff rfl rfl]

theorem nonNull_empty_of_not_mem {db : Database} {pred : Predicate}
    {tb : Table} {cols : List (String × DataType)} {n tname : String}
    (hwf : WellFormed db) (hft : findTable db tname = some tb)
    (hms : mergedSchema tb.chunks = .ok cols)
    (hn : n ∉ cols.map Prod.fst) :
    nonNullTimes n (tableMatchingRows db pred tname) = [] := by
  unfold nonNullTimes
  apply filterMap_nil_of_none
  intro r hr
  have hnot : ¬ (r.colVal n).isSome = true := by
    intro hsome
    obtain ⟨w, hwmem, hwsome⟩ := colVal_isSome_mem hsome
    have hrtb : r ∈ tb.allRows := by
      unfold tableMatchingRows at hr
      rw [hft] at hr
      exact List.mem_of_mem_filter hr
    obtain ⟨b, hb, hrb⟩ := mem_flat.mp hrtb
    obtain ⟨ch, hch, rfl⟩ := List.mem_map.mp hb
    have hns := hwf tb (findTable_mem hft).1 ch hch r hrb (n, w) hwmem hwsome
    exact hn (mergedSchema_names hms ch hch n hns)
  rw [if_neg hnot]

theorem buildPlans_ts {db : Database} {pred : Predicate}
    (hwf : WellFormed db) (n : String) :
    ∀ {cands : List String} {plans : List LogicalPlan},
      buildPlans db pred cands = .ok plans →
      maxTs (fieldTsList n (flat (plans.map (fun pl =>
        planFields pl.fieldColumns [runPlan db pl])))) =
      maxTs (nonNullTimes n (flat (cands.map (tableMatchingRows db pred)))) := by
  intro cands
  induction cands with
  | nil =>
      intro plans h
      cases h
      rfl
  | cons tn ts ih =>
      intro plans h
      obtain ⟨op, rest, hb, hr, rfl⟩ := buildPlans_inv h
      have hrhs : flat ((tn :: ts).map (tableMatchingRows db pred)) =
          tableMatchingRows db pred tn ++
            flat (ts.map (tableMatchingRows db pred)) := rfl
      rw [hrhs, nonNullTimes_append, maxTs_append]
      cases op with
      | none =>
          have hnone : maxTs (nonNullTimes n
              (tableMatchingRows db pred tn)) = none := by
            rcases buildPlan_none hb with hftn | ⟨tb, cols, hft, hms, hemp⟩
            · unfold tableMatchingRows
              rw [hftn]
              rfl
            · have hcols : n ∉ cols.map Prod.fst := by
                intro hmem
                cases cols with
                | nil => simp at hmem
                | cons a b => simp [List.isEmpty] at hemp
              rw [nonNull_empty_of_not_mem hwf hft hms hcols]
              rfl
          rw [hnone, ih hr]
          rfl
      | some p =>
          obtain ⟨tb, cols, hft, hms, hemp, rfl⟩ := buildPlan_some hb
          have hlhs : flat (((⟨tn, cols, pred.row_filter_terms, pred.range⟩ :
              LogicalPlan) :: rest).map (fun pl =>
                planFields pl.fieldColumns [runPlan db pl])) =
              planFields cols
                [runPlan db ⟨tn, cols, pred.row_filter_terms, pred.range⟩] ++
              flat (rest.map (fun pl =>
                planFields pl.fieldColumns [runPlan db pl])) := rfl
          rw [hlhs, fieldTsList_append, maxTs_append]
          have hrun : runPlan db
              ⟨tn, cols, pred.row_filter_terms, pred.range⟩ =
              tableMatchingRows db pred tn := by
            unfold runPlan tableMatchingRows
            rw [hft]
            rfl
          rw [hrun, planFields_ts]
          by_cases hmem : n ∈ cols.map Prod.fst
          · rw [if_pos hmem, ih hr]
          · rw [if_neg hmem, ih hr,
                nonNull_empty_of_not_mem hwf hft hms hmem]
            rfl

/-! ### Inversions for the whole pipeline and the characterization -/

theorem findFieldTs_mem {n : String} {ts : Int} :
    ∀ {fs : List Field}, findFieldTs n fs = some ts →
      ∃ f ∈ fs, f.name = n ∧ f.last_timestamp = ts := by
  intro fs
  induction fs with
  | nil => intro h; cases h
  | cons g gs ih =>
      intro h
      simp only [findFieldTs] at h
      by_cases hg : g.name = n
      · rw [if_pos hg] at h
        cases h
        exact ⟨g, List.mem_cons_self _ _, hg, rfl⟩
      · rw [if_neg hg] at h
        obtain ⟨f, hf, hn, hts⟩ := ih h
        exact ⟨f, List.mem_cons_of_mem _ hf, hn, hts⟩

theorem findFieldTs_of_mem {f : Field} :
    ∀ {fs : List Field}, FieldsSorted fs → f ∈ fs →
      findFieldTs f.name fs = some f.last_timestamp := by
  intro fs
  induction fs with
  | nil => intro _ h; simp at h
  | cons g gs ih =>
      intro hs hmem
      rcases List.pairwise_cons.mp hs with ⟨hg, hgs⟩
      rcases List.mem_cons.mp hmem with rfl | hmem'
      · simp [findFieldTs]
      · have hne : g.name ≠ f.name := (hg f hmem').ne
        simp only [findFieldTs]
        rw [if_neg hne]
        exact ih hgs hmem'

theorem to_field_list_inv {db : Database} {p : FieldListPlan} {fl : FieldList}
    (h : to_field_list db p = .ok fl) :
    mergeFields (flat (p.plans.map (fun pl =>
      planFields pl.fieldColumns [runPlan db pl]))) = .ok fl.fields := by
  unfold to_field_list aggregate at h
  rw [List.map_map] at h
  replace h : (mergeFields (flat (p.plans.map (fun pl =>
      planFields pl.fieldColumns [runPlan db pl])))).map FieldList.mk =
      .ok fl := h
  cases hm : mergeFields (flat (p.plans.map (fun pl =>
      planFields pl.fieldColumns [runPlan db pl]))) with
  | error e => rw [hm, except_map_error] at h; cases h
  | ok fields =>
      rw [hm, except_map_ok] at h
      cases h
      rfl

theorem field_columns_inv {db : Database} {pred : Predicate}
    {fp : FieldListPlan} (h : field_columns db pred = .ok fp) :
    buildPlans db pred (candidateTables db pred) = .ok fp.plans := by
  unfold field_columns at h
  cases hbp : buildPlans db pred (candidateTables db pred) with
  | error e => rw [hbp, except_map_error] at h; cases h
  | ok plans =>
      rw [hbp, except_map_ok] at h
      cases h
      rfl

theorem runQuery_ok_inv {db : Database} {pred : Predicate} {fl : FieldList}
    (h : runQuery db pred = .ok fl) :
    ∃ fp, field_columns db pred = .ok fp ∧ to_field_list db fp = .ok fl := by
  unfold runQuery at h
  cases hfc : field_columns db pred with
  | error e => rw [hfc] at h; cases h
  | ok fp =>
      rw [hfc] at h
      replace h : (match to_field_list db fp with
        | .error _ => (.error .aggregation : Except QueryError FieldList)
        | .ok fl' => .ok fl') = .ok fl := h
      cases htf : to_field_list db fp with
      | error e => rw [htf] at h; cases h
      | ok fl' =>
          rw [htf] at h
          cases h
          exact ⟨fp, rfl, htf⟩

theorem runQuery_sorted {db : Database} {pred : Predicate} {fl : FieldList}
    (h : runQuery db pred = .ok fl) : FieldsSorted fl.fields := by
  obtain ⟨fp, _, htf⟩ := runQuery_ok_inv h
  exact mergeFields_sorted (to_field_list_inv htf)

theorem runQuery_ts_char {db : Database} {pred : Predicate} {fl : FieldList}
    (hwf : WellFormed db) (h : runQuery db pred = .ok fl) (n : String) :
    findFieldTs n fl.fields = specLastTs db pred n := by
  obtain ⟨fp, hfc, htf⟩ := runQuery_ok_inv h
  have hbp := field_columns_inv hfc
  have hm := to_field_list_inv htf
  rw [mergeFields_ts hm n]
  exact buildPlans_ts hwf n hbp

/-! ### Congruence helpers for the claim proofs -/

theorem buildPlan_congr {db : Database} {pred1 pred2 : Predicate}
    (hrf : pred1.row_filter_terms = pred2.row_filter_terms)
    (hr : pred1.range = pred2.range) (tn : String) :
    buildPlan db pred1 tn = buildPlan db pred2 tn := by
  unfold buildPlan
  rw [hrf, hr]

theorem buildPlans_congr {db : Database} {pred1 pred2 : Predicate}
    (hrf : pred1.row_filter_terms = pred2.row_filter_terms)
    (hr : pred1.range = pred2.range) :
    ∀ cands : List String,
      buildPlans db pred1 cands = buildPlans db pred2 cands := by
  intro cands
  induction cands with
  | nil => rfl
  | cons tn ts ih =>
      simp only [buildPlans]
      rw [buildPlan_congr hrf hr tn, ih]

theorem map_congr_fun {α β : Type} {f g : α → β} :
    ∀ {l : List α}, (∀ a ∈ l, f a = g a) → l.map f = l.map g := by
  intro l
  induction l with
  | nil => intro _; rfl
  | cons a t ih =>
      intro h
      rw [List.map_cons, List.map_cons, h a (List.mem_cons_self _ _),
          ih (fun b hb => h b (List.mem_cons_of_mem _ hb))]

theorem inRange_mono {r1 r2 : Option (Int × Int)} (h : rangeSubset r2 r1)
    {t : Int} (ht : inRange r2 t = true) : inRange r1 t = true := by
  cases r1 with
  | none => rfl
  | some p1 =>
      cases r2 with
      | none => exact absurd h (by cases p1; simp [rangeSubset])
      | some p2 =>
          cases p1 with
          | mk s1 e1 =>
              cases p2 with
              | mk s2 e2 =>
                  simp only [rangeSubset] at h
                  simp only [inRange, Bool.and_eq_true, decide_eq_true_eq]
                    at ht ⊢
                  exact ⟨le_trans h.1 ht.1, lt_of_lt_of_le ht.2 h.2⟩

theorem runPlan_eq_filter (db : Database) (pl : LogicalPlan) :
    runPlan db pl =
      (tableRows db pl.table).filter
        (rowMatches pl.table pl.filters pl.range) := by
  unfold runPlan tableRows
  cases findTable db pl.table with
  | none => rfl
  | some t => rfl

theorem planFields_rows_perm {cols : List (String × DataType)}
    {rows1 rows2 : List Row} (h : rows1.Perm rows2) :
    planFields cols [rows1] = planFields cols [rows2] := by
  have hts : ∀ c : String × DataType,
      maxTs (nonNullTimes c.1 (flat [rows1])) =
      maxTs (nonNullTimes c.1 (flat [rows2])) := by
    intro c
    rw [flat_singleton, flat_singleton]
    exact maxTs_perm (h.filterMap _)
  simp only [planFields, hts]

/-! ### Claim theorems -/

/-- C1: for the two-measurements scenario (table `h2o` spanning two
fragments) with tag filter `state = MA`, `field_columns` followed by
`to_field_list` returns exactly the three fields moisture@100000,
other_temp@250 and temp@100000, each of Float type, in that order. -/
theorem scenarioA_field_list :
    runQuery twoMeasurementsDb predStateMA =
      .ok (FieldList.mk
        [⟨"moisture", .float, 100000⟩,
         ⟨"other_temp", .float, 250⟩,
         ⟨"temp", .float, 100000⟩]) := by
  decide

/-- C2: a predicate carrying a measurement-equality term and no explicit
table-name term resolves, at plan time, to the identical plan that the
explicit table filter produces, and no plan ever carries a
measurement-equality term as a residual per-row filter. -/
theorem measurement_pred_equiv_plan (db : Database) (m : String)
    (filters : List FilterTerm) (range : Option (Int × Int)) :
    field_columns db ⟨none, .measurementEq m :: filters, range⟩ =
      field_columns db ⟨some m, filters, range⟩ ∧
    (∀ fp, field_columns db ⟨none, .measurementEq m :: filters, range⟩ =
        .ok fp → ∀ pl ∈ fp.plans, ∀ t ∈ pl.filters,
          t.isMeasurementEq = false) := by
  have hrf : (⟨none, .measurementEq m :: filters, range⟩ :
      Predicate).row_filter_terms =
      (⟨some m, filters, range⟩ : Predicate).row_filter_terms := rfl
  constructor
  · unfold field_columns
    have hc1 : candidateTables db ⟨none, .measurementEq m :: filters, range⟩ =
        [m] := rfl
    rw [hc1]
    by_cases hmem : m ∈ tableNames db
    · have hc2 : candidateTables db ⟨some m, filters, range⟩ = [m] := by
        show (if m ∈ tableNames db then [m] else []) = [m]
        rw [if_pos hmem]
      rw [hc2, buildPlans_congr hrf rfl [m]]
    · have hc2 : candidateTables db ⟨some m, filters, range⟩ = [] := by
        show (if m ∈ tableNames db then [m] else []) = []
        rw [if_neg hmem]
      rw [hc2]
      have hplan : buildPlan db
          ⟨none, .measurementEq m :: filters, range⟩ m = .ok none := by
        unfold buildPlan
        rw [findTable_not_mem hmem]
      have hones : buildPlans db
          ⟨none, .measurementEq m :: filters, range⟩ [m] = .ok [] := by
        simp only [buildPlans]
        rw [hplan]
        rfl
      rw [hones]
      rfl
  · intro fp hfp pl hpl t ht
    have hfil := (buildPlans_mem (field_columns_inv hfp) pl hpl).1
    rw [hfil] at ht
    unfold Predicate.row_filter_terms at ht
    have := (List.mem_filter.mp ht).2
    cases hb : t.isMeasurementEq with
    | false => rfl
    | true => rw [hb] at this; cases this

/-- C2 witness: the equivalence and the residual-filter absence at the
concrete two-measurements scenario with measurement name `h2o`. -/
theorem measurement_pred_equiv_plan_witness :
    field_columns twoMeasurementsDb
        ⟨none, [.measurementEq "h2o"], none⟩ =
      field_columns twoMeasurementsDb ⟨some "h2o", [], none⟩ ∧
    (∀ t ∈ (LogicalPlan.mk "h2o"
        [("moisture", .float), ("other_temp", .float), ("temp", .float)]
        [] none).filters, t.isMeasurementEq = false) :=
  ⟨(measurement_pred_equiv_plan twoMeasurementsDb "h2o" [] none).1,
   fun t ht =>
     (measurement_pred_equiv_plan twoMeasurementsDb "h2o" [] none).2
       (FieldListPlan.mk [LogicalPlan.mk "h2o"
         [("moisture", .float), ("other_temp", .float), ("temp", .float)]
         [] none])
       (by decide)
       (LogicalPlan.mk "h2o"
         [("moisture", .float), ("other_temp", .float), ("temp", .float)]
         [] none)
       (by decide) t ht⟩

/-- C3: whenever the resolved candidate table set is empty,
`field_columns` succeeds with an empty plan list, and aggregating the
empty plan list succeeds with an empty field list. -/
theorem empty_candidates_empty_result (db : Database) (pred : Predicate)
    (h : candidateTables db pred = []) :
    field_columns db pred = .ok (FieldListPlan.mk []) ∧
    to_field_list db (FieldListPlan.mk []) = .ok (FieldList.mk []) := by
  constructor
  · unfold field_columns
    rw [h]
    rfl
  · rfl

/-- C3 witness: scenario D, a predicate naming a non-existent table on
the two-measurements database. -/
theorem empty_candidates_empty_result_witness :
    candidateTables twoMeasurementsDb predNoSuchTable = [] ∧
    (field_columns twoMeasurementsDb predNoSuchTable =
        .ok (FieldListPlan.mk []) ∧
      to_field_list twoMeasurementsDb (FieldListPlan.mk []) =
        .ok (FieldList.mk [])) :=
  ⟨by decide,
   empty_candidates_empty_result twoMeasurementsDb predNoSuchTable
     (by decide)⟩

/-- C7: for one table holding one row at time=100 with field1=70.5,
field2="ss", field3=2, field4=null under range [0,200), `field_columns`
emits exactly one plan projecting field1..field4 then time, executing it
yields exactly that row, and `to_field_list` yields exactly the three
populated fields, silently omitting the all-null field4. -/
theorem scenarioC_plan_and_fields :
    field_columns oneMeasurementDb predRange0200 =
      .ok (FieldListPlan.mk [⟨"h2o",
        [("field1", .float), ("field2", .string),
         ("field3", .integer), ("field4", .boolean)], [], some (0, 200)⟩]) ∧
    (LogicalPlan.mk "h2o"
        [("field1", .float), ("field2", .string),
         ("field3", .integer), ("field4", .boolean)]
        [] (some (0, 200))).projectedColumns =
      ["field1", "field2", "field3", "field4", "time"] ∧
    runPlan oneMeasurementDb
      (LogicalPlan.mk "h2o"
        [("field1", .float), ("field2", .string),
         ("field3", .integer), ("field4", .boolean)]
        [] (some (0, 200))) = [oneMeasurementRow] ∧
    runQuery oneMeasurementDb predRange0200 =
      .ok (FieldList.mk
        [⟨"field1", .float, 100⟩, ⟨"field2", .string, 100⟩,
         ⟨"field3", .integer, 100⟩]) := by
  refine ⟨by decide, by decide, by decide, by decide⟩

/-- C10: for the two-measurements scenario under `_measurement = h2o`
with no tag filter and no timestamp range, the result is exactly
moisture@100000, other_temp@350, temp@100000, all Float. -/
theorem measurement_pred_field_list :
    runQuery twoMeasurementsDb predMeasurementH2o =
      .ok (FieldList.mk
        [⟨"moisture", .float, 100000⟩,
         ⟨"other_temp", .float, 350⟩,
         ⟨"temp", .float, 100000⟩]) := by
  decide

/-- C4: every returned field's `last_timestamp` is the maximum timestamp
among predicate-matching rows in which the field's column is non-null, and
a field column that is non-null in no predicate-matching row never
appears in the result. -/
theorem last_timestamp_max_nonnull (db : Database) (pred : Predicate)
    (fl : FieldList) (hwf : WellFormed db)
    (h : runQuery db pred = .ok fl) :
    (∀ f ∈ fl.fields, specLastTs db pred f.name = some f.last_timestamp) ∧
    (∀ n, specLastTs db pred n = none → ∀ f ∈ fl.fields, f.name ≠ n) := by
  have hchar := runQuery_ts_char hwf h
  have hsorted := runQuery_sorted h
  constructor
  · intro f hf
    rw [← hchar f.name]
    exact findFieldTs_of_mem hsorted hf
  · intro n hn f hf he
    have hts := findFieldTs_of_mem hsorted hf
    rw [he, hchar n, hn] at hts
    cases hts

/-- C4 witness: the invariant instantiated at scenario A. -/
theorem last_timestamp_max_nonnull_witness :
    WellFormed twoMeasurementsDb ∧
    runQuery twoMeasurementsDb predStateMA =
      .ok (FieldList.mk
        [⟨"moisture", .float, 100000⟩,
         ⟨"other_temp", .float, 250⟩,
         ⟨"temp", .float, 100000⟩]) ∧
    (∀ f ∈ (FieldList.mk
        [⟨"moisture", .float, 100000⟩,
         ⟨"other_temp", .float, 250⟩,
         ⟨"temp", .float, 100000⟩]).fields,
      specLastTs twoMeasurementsDb predStateMA f.name =
        some f.last_timestamp) :=
  ⟨by decide, by decide,
   (last_timestamp_max_nonnull twoMeasurementsDb predStateMA _
     (by decide) (by decide)).1⟩

/-- C5: for every successful run the output field list is strictly
ascending by field name in codepoint order with no duplicate names, and
the empty field list is a valid (error-free) result. -/
theorem field_list_sorted_nodup (db : Database) (pred : Predicate)
    (fl : FieldList) (h : runQuery db pred = .ok fl) :
    List.Pairwise (fun a b => a.name < b.name) fl.fields ∧
    (fl.fields.map Field.name).Nodup ∧
    to_field_list db (FieldListPlan.mk []) = .ok (FieldList.mk []) := by
  have hs := runQuery_sorted h
  refine ⟨hs, ?_, rfl⟩
  have hp : List.Pairwise (fun a b : String => a < b)
      (fl.fields.map Field.name) :=
    List.Pairwise.map _ (fun a b hab => hab) hs
  exact hp.imp (fun hab => ne_of_lt hab)

/-- C5 witness: sortedness and nodup at scenario A. -/
theorem field_list_sorted_nodup_witness :
    runQuery twoMeasurementsDb predStateMA =
      .ok (FieldList.mk
        [⟨"moisture", .float, 100000⟩,
         ⟨"other_temp", .float, 250⟩,
         ⟨"temp", .float, 100000⟩]) ∧
    (List.Pairwise (fun a b : Field => a.name < b.name)
        (FieldList.mk
          [⟨"moisture", .float, 100000⟩,
           ⟨"other_temp", .float, 250⟩,
           ⟨"temp", .float, 100000⟩]).fields ∧
      ((FieldList.mk
          [⟨"moisture", .float, 100000⟩,
           ⟨"other_temp", .float, 250⟩,
           ⟨"temp", .float, 100000⟩]).fields.map Field.name).Nodup ∧
      to_field_list twoMeasurementsDb (FieldListPlan.mk []) =
        .ok (FieldList.mk [])) :=
  ⟨by decide,
   field_list_sorted_nodup twoMeasurementsDb predStateMA _ (by decide)⟩

/-- C6: narrowing the timestamp range (all other predicate parts equal)
never introduces a field and never increases a field's last timestamp:
every field of the narrow result appears in the wide result with a
greater-or-equal last timestamp. -/
theorem narrow_range_monotone (db : Database) (p1 p2 : Predicate)
    (fl1 fl2 : FieldList) (hwf : WellFormed db)
    (htab : p2.table_name = p1.table_name) (hex : p2.exprs = p1.exprs)
    (hr : rangeSubset p2.range p1.range)
    (h1 : runQuery db p1 = .ok fl1) (h2 : runQuery db p2 = .ok fl2) :
    ∀ f2 ∈ fl2.fields, ∃ f1 ∈ fl1.fields,
      f1.name = f2.name ∧ f2.last_timestamp ≤ f1.last_timestamp := by
  intro f2 hf2
  have hchar1 := runQuery_ts_char hwf h1
  have hchar2 := runQuery_ts_char hwf h2
  have hs2 := runQuery_sorted h2
  have hs1 := runQuery_sorted h1
  have hts2 : specLastTs db p2 f2.name = some f2.last_timestamp := by
    rw [← hchar2 f2.name]
    exact findFieldTs_of_mem hs2 hf2
  -- candidate tables and residual filters agree
  have hcands : candidateTables db p2 = candidateTables db p1 := by
    unfold candidateTables Predicate.measurement_equality
    rw [htab, hex]
  have hrf : p2.row_filter_terms = p1.row_filter_terms := by
    unfold Predicate.row_filter_terms
    rw [hex]
  -- every matching row under p2 matches under p1
  have hrowimp : ∀ tn r, r ∈ tableMatchingRows db p2 tn →
      r ∈ tableMatchingRows db p1 tn := by
    intro tn r hrm
    unfold tableMatchingRows at hrm ⊢
    cases hft : findTable db tn with
    | none =>
        rw [hft] at hrm
        exact absurd hrm (List.not_mem_nil r)
    | some tb =>
        rw [hft] at hrm
        replace hrm : r ∈ tb.allRows.filter
            (rowMatches tn p2.row_filter_terms p2.range) := hrm
        show r ∈ tb.allRows.filter
            (rowMatches tn p1.row_filter_terms p1.range)
        have hmem := List.mem_of_mem_filter hrm
        have hcond := List.of_mem_filter hrm
        refine List.mem_filter.mpr ⟨hmem, ?_⟩
        unfold rowMatches at hcond ⊢
        rw [Bool.and_eq_true] at hcond ⊢
        refine ⟨by rw [← hrf]; exact hcond.1, inRange_mono hr hcond.2⟩
  -- transfer times from the narrow to the wide matching-row set
  have htimesimp : ∀ ts, ts ∈ nonNullTimes f2.name (matchingRows db p2) →
      ts ∈ nonNullTimes f2.name (matchingRows db p1) := by
    intro ts hts
    obtain ⟨r, hrmem, hrts⟩ := List.mem_filterMap.mp hts
    refine List.mem_filterMap.mpr ⟨r, ?_, hrts⟩
    unfold matchingRows at hrmem ⊢
    obtain ⟨b, hb, hrb⟩ := mem_flat.mp hrmem
    obtain ⟨tn, htn, rfl⟩ := List.mem_map.mp hb
    refine mem_flat.mpr ⟨tableMatchingRows db p1 tn, ?_, hrowimp tn r hrb⟩
    refine List.mem_map_of_mem _ ?_
    rw [← hcands]
    exact htn
  have hmem2 : f2.last_timestamp ∈
      nonNullTimes f2.name (matchingRows db p2) := maxTs_mem hts2
  have hmem1 := htimesimp _ hmem2
  obtain ⟨m, hm, hle⟩ := le_maxTs hmem1
  have hts1 : specLastTs db p1 f2.name = some m := hm
  rw [← hchar1 f2.name] at hts1
  obtain ⟨f1, hf1, hf1n, hf1ts⟩ := findFieldTs_mem hts1
  exact ⟨f1, hf1, hf1n, by rw [hf1ts]; exact hle⟩

/-- C6 witness: narrowing scenario A's range to [200,300) keeps only
other_temp and does not raise any timestamp. -/
theorem narrow_range_monotone_witness :
    WellFormed twoMeasurementsDb ∧
    rangeSubset predStateMATs.range predStateMA.range ∧
    runQuery twoMeasurementsDb predStateMA =
      .ok (FieldList.mk
        [⟨"moisture", .float, 100000⟩,
         ⟨"other_temp", .float, 250⟩,
         ⟨"temp", .float, 100000⟩]) ∧
    runQuery twoMeasurementsDb predStateMATs =
      .ok (FieldList.mk [⟨"other_temp", .float, 250⟩]) ∧
    (∀ f2 ∈ (FieldList.mk [⟨"other_temp", .float, 250⟩]).fields,
      ∃ f1 ∈ (FieldList.mk
        [⟨"moisture", .float, 100000⟩,
         ⟨"other_temp", .float, 250⟩,
         ⟨"temp", .float, 100000⟩]).fields,
        f1.name = f2.name ∧ f2.last_timestamp ≤ f1.last_timestamp) :=
  ⟨by decide, trivial, by decide, by decide,
   narrow_range_monotone twoMeasurementsDb predStateMA predStateMATs _ _
     (by decide) rfl rfl trivial (by decide) (by decide)⟩

/-- C8: the cross-plan field-merge reduction is order-independent in both
plan order and batch order: permuting each plan's batches and permuting
the plans produces the identical aggregation result. -/
theorem aggregate_order_independent (r1 r1' r2 : List PlanResult)
    (h1 : List.Forall₂ PlanResultPerm r1 r1') (h2 : r1'.Perm r2) :
    aggregate r1 = aggregate r2 := by
  have e1 : r1.map (fun pr => planFields pr.1 pr.2) =
      r1'.map (fun pr => planFields pr.1 pr.2) := by
    refine map_eq_of_forall2 (h1.imp ?_)
    intro a b hab
    rcases hab with ⟨hs, hp⟩
    rw [hs, planFields_batches_perm hp]
  unfold aggregate
  rw [e1, mergeFields_perm (flat_perm (h2.map _))]

/-- C8 witness: reordering two plans and one plan's two batches yields the
identical field list. -/
theorem aggregate_order_independent_witness :
    List.Forall₂ PlanResultPerm [planResA, planResB] [planResArev, planResB] ∧
    List.Perm [planResArev, planResB] [planResB, planResArev] ∧
    aggregate [planResA, planResB] = aggregate [planResB, planResArev] := by
  refine ⟨?_, by decide, ?_⟩
  · exact List.Forall₂.cons ⟨rfl, by decide⟩
      (List.Forall₂.cons ⟨rfl, by decide⟩ List.Forall₂.nil)
  · exact aggregate_order_independent [planResA, planResB]
      [planResArev, planResB] [planResB, planResArev]
      (List.Forall₂.cons ⟨rfl, by decide⟩
        (List.Forall₂.cons ⟨rfl, by decide⟩ List.Forall₂.nil))
      (by decide)

/-- C9: for a fixed predicate, the final result is independent of the
physical arrangement of the same logical data into chunks: two databases
exposing the same table names, per-table merged schemas, and per-table
row multisets produce identical output. -/
theorem chunk_layout_independent (db1 db2 : Database) (pred : Predicate)
    (hnames : tableNames db1 = tableNames db2)
    (hschema : ∀ n ∈ tableNames db1, tableSchema db1 n = tableSchema db2 n)
    (hrows : ∀ n ∈ tableNames db1,
      (tableRows db1 n).Perm (tableRows db2 n)) :
    runQuery db1 pred = runQuery db2 pred := by
  have hschema' : ∀ n, tableSchema db1 n = tableSchema db2 n := by
    intro n
    by_cases hmem : n ∈ tableNames db1
    · exact hschema n hmem
    · unfold tableSchema
      rw [findTable_not_mem hmem, findTable_not_mem (hnames ▸ hmem)]
  have hrows' : ∀ n, (tableRows db1 n).Perm (tableRows db2 n) := by
    intro n
    by_cases hmem : n ∈ tableNames db1
    · exact hrows n hmem
    · unfold tableRows
      rw [findTable_not_mem hmem, findTable_not_mem (hnames ▸ hmem)]
  have hcands : candidateTables db1 pred = candidateTables db2 pred := by
    unfold candidateTables
    rw [hnames]
  have hbuild : ∀ tn, buildPlan db1 pred tn = buildPlan db2 pred tn := by
    intro tn
    have hsch := hschema' tn
    unfold tableSchema at hsch
    unfold buildPlan
    cases hf1 : findTable db1 tn with
    | none =>
        rw [hf1] at hsch
        cases hf2 : findTable db2 tn with
        | none => rfl
        | some t2 =>
            rw [hf2] at hsch
            exact Option.noConfusion hsch
    | some t1 =>
        rw [hf1] at hsch
        cases hf2 : findTable db2 tn with
        | none =>
            rw [hf2] at hsch
            exact Option.noConfusion hsch
        | some t2 =>
            rw [hf2] at hsch
            replace hsch : some (mergedSchema t1.chunks) =
                some (mergedSchema t2.chunks) := hsch
            show (mergedSchema t1.chunks).map _ = (mergedSchema t2.chunks).map _
            rw [Option.some.inj hsch]
  have hplans : ∀ cands, buildPlans db1 pred cands = buildPlans db2 pred cands := by
    intro cands
    induction cands with
    | nil => rfl
    | cons tn ts ih =>
        simp only [buildPlans]
        rw [hbuild tn, ih]
  have hfc : field_columns db1 pred = field_columns db2 pred := by
    unfold field_columns
    rw [hcands, hplans _]
  have hrunperm : ∀ pl : LogicalPlan,
      (runPlan db1 pl).Perm (runPlan db2 pl) := by
    intro pl
    rw [runPlan_eq_filter, runPlan_eq_filter]
    exact (hrows' pl.table).filter _
  have htfl : ∀ fp : FieldListPlan,
      to_field_list db1 fp = to_field_list db2 fp := by
    intro fp
    unfold to_field_list aggregate
    have hmapeq : (fp.plans.map (fun pl =>
        (pl.fieldColumns, [runPlan db1 pl]))).map
          (fun pr => planFields pr.1 pr.2) =
        (fp.plans.map (fun pl =>
        (pl.fieldColumns, [runPlan db2 pl]))).map
          (fun pr => planFields pr.1 pr.2) := by
      rw [List.map_map, List.map_map]
      exact map_congr_fun (fun pl _ => planFields_rows_perm (hrunperm pl))
    rw [hmapeq]
  unfold runQuery
  rw [hfc]
  cases hfc2 : field_columns db2 pred with
  | error e => rfl
  | ok fp =>
      show (match to_field_list db1 fp with
        | .error _ => (.error .aggregation : Except QueryError FieldList)
        | .ok fl => .ok fl) =
        (match to_field_list db2 fp with
        | .error _ => (.error .aggregation : Except QueryError FieldList)
        | .ok fl => .ok fl)
      rw [htfl fp]

/-- C9 witness: the two-fragment and one-fragment arrangements of the
two-measurements data produce identical output under scenario A's
predicate. -/
theorem chunk_layout_independent_witness :
    tableNames twoMeasurementsDb = tableNames twoMeasurementsDbOneChunk ∧
    (∀ n ∈ tableNames twoMeasurementsDb,
      tableSchema twoMeasurementsDb n =
        tableSchema twoMeasurementsDbOneChunk n) ∧
    (∀ n ∈ tableNames twoMeasurementsDb,
      (tableRows twoMeasurementsDb n).Perm
        (tableRows twoMeasurementsDbOneChunk n)) ∧
    runQuery twoMeasurementsDb predStateMA =
      runQuery twoMeasurementsDbOneChunk predStateMA :=
  ⟨by decide, by decide, by decide,
   chunk_layout_independent twoMeasurementsDb twoMeasurementsDbOneChunk
     predStateMA (by decide) (by decide) (by decide)⟩

end FieldCols
